import Mathlib

/-!
# Verification of the CareerFlow job-discovery pipeline

Shallow embedding of the job-discovery core of the CareerFlow application:

* `getRootDomain`, `normalizeUrl`, the link classifier and the
  filter/sort/deduplicate pipeline of `findRelevantJobs`
  (`src/services/geminiService.ts`, and the snapshot variant in
  `src/unnamed/part_002`);
* the task planner, round-robin preset quota distribution and the
  aggregation of `handleProcessAll` (`src/App.tsx`);
* the error-classification helper `checkForGeminiError` and the
  per-task error handling of the orchestrator.

Strings are modelled as Lean `String`s; the string operations the code
uses (`toLowerCase`, `trim`, `includes`, `startsWith`, `split`, …) are
implemented here on character lists so that every definition evaluates
inside the kernel.  ASCII case conventions suffice for every constant
appearing in the code.  The WHATWG `URL` constructor is modelled by
`parseURL`, a simplified parser for `scheme://host...` URLs.
-/

namespace CareerFlow

/-- Prefix test: `strHasAt s pat` holds when `pat` is a prefix of `s`
(on character lists). -/
def strHasAt : List Char → List Char → Bool
  | _, [] => true
  | [], _ :: _ => false
  | c :: cs, p :: ps => c = p && strHasAt cs ps

/-- Substring test: `strHasAux pat s` holds when `pat` occurs as a
contiguous substring of `s`. -/
def strHasAux (pat : List Char) : List Char → Bool
  | [] => strHasAt [] pat
  | c :: cs => strHasAt (c :: cs) pat || strHasAux pat cs

/-- Models JavaScript `s.includes(pat)`: substring containment. -/
def strHas (s pat : String) : Bool :=
  strHasAux pat.toList s.toList

/-- Models JavaScript `s.startsWith(pre)`. -/
def startsWithStr (s pre : String) : Bool :=
  strHasAt s.toList pre.toList

/-- Models JavaScript `s.endsWith(suf)`. -/
def endsWithStr (s suf : String) : Bool :=
  strHasAt s.toList.reverse suf.toList.reverse

/-- Models JavaScript `s.toLowerCase()` (ASCII; every constant the code
compares against is ASCII). -/
def lowerStr (s : String) : String :=
  String.mk (s.toList.map Char.toLower)

/-- Models JavaScript `s.trim()`. -/
def trimStr (s : String) : String :=
  String.mk (((s.toList.dropWhile Char.isWhitespace).reverse.dropWhile
    Char.isWhitespace).reverse)

/-- Models JavaScript `s.slice(n)` for `n ≥ 0` (drop the first `n` characters). -/
def dropStr (s : String) (n : Nat) : String :=
  String.mk (s.toList.drop n)

/-- Drop the final character (the effect of `replace(/\/$/, '')` once the
trailing slash is known to be present). -/
def dropLastStr (s : String) : String :=
  String.mk s.toList.dropLast

/-- Models JavaScript `s.length` (all strings involved are ASCII, so
UTF-16 units and characters agree). -/
def strLen (s : String) : Nat :=
  s.toList.length

/-- Split on the dot character, as JavaScript `hostname.split('.')`
(`"".split('.')` is `[""]`). -/
def splitDotsAux : List Char → List Char → List String
  | [], acc => [String.mk acc.reverse]
  | '.' :: rest, acc => String.mk acc.reverse :: splitDotsAux rest []
  | c :: rest, acc => splitDotsAux rest (c :: acc)

/-- Models JavaScript `s.split('.')`. -/
def splitDots (s : String) : List String :=
  splitDotsAux s.toList []

/-- Models JavaScript `parts.join('.')`. -/
def joinDots : List String → String
  | [] => ""
  | [p] => p
  | p :: rest => p ++ "." ++ joinDots rest

/-- Split a string at the first occurrence of `"://"`, returning the parts
before and after it; `none` when it does not occur. -/
def splitSchemeAux : List Char → List Char → Option (List Char × List Char)
  | ':' :: '/' :: '/' :: rest, acc => some (acc.reverse, rest)
  | c :: rest, acc => splitSchemeAux rest (c :: acc)
  | [], _ => none

/-- Model of a parsed URL: only the components the pipeline reads. -/
structure URLModel where
  scheme : String
  hostname : String
  deriving Repr, DecidableEq

/-- Models the WHATWG `new URL(s)` constructor, restricted to the
`scheme://host…` shape that every URL handled by the pipeline has:
the scheme is the (nonempty, alphabetic) text before the first `"://"`,
the hostname runs from there to the first `/`, `:`, `?` or `#`, must be
nonempty and contain no space, and is lower-cased (as the real
constructor does).  Returns `none` where the real constructor throws. -/
def parseURL (s : String) : Option URLModel :=
  match splitSchemeAux s.toList [] with
  | none => none
  | some (schemeChars, restChars) =>
    if schemeChars ≠ [] ∧ schemeChars.all Char.isAlpha then
      let hostChars := restChars.takeWhile fun c => !(c = '/' || c = ':' || c = '?' || c = '#')
      if hostChars = [] ∨ hostChars.any (· = ' ') then none
      else some ⟨String.mk (schemeChars.map Char.toLower), String.mk (hostChars.map Char.toLower)⟩
    else none

/-- The `getRootDomain` helper of `src/services/geminiService.ts` (identical in
`src/unnamed/part_002`): prefix `https://` when the input does not start
with `http`, parse, and keep the last two dot-separated labels of the
hostname when it has more than two; on a parse failure return the input. -/
def getRootDomain (url : String) : String :=
  match parseURL (if startsWithStr url "http" then url else "https://" ++ url) with
  | some u =>
    let parts := splitDots u.hostname
    if parts.length > 2 then joinDots (parts.drop (parts.length - 2))
    else u.hostname
  | none => url

/-- The `normalize` helper inside `findRelevantJobs`:
`u.toLowerCase().replace(/\/$/, '').replace(/^https?:\/\/(www\.)?/, '')`. -/
def normalizeUrl (u : String) : String :=
  let l := lowerStr u
  let l := if endsWithStr l "/" then dropLastStr l else l
  if startsWithStr l "https://" then
    (fun s => if startsWithStr s "www." then dropStr s 4 else s) (dropStr l 8)
  else if startsWithStr l "http://" then
    (fun s => if startsWithStr s "www." then dropStr s 4 else s) (dropStr l 7)
  else l

/-- One search-result link (title/URL pair): `JobLink` in `types.ts`. -/
structure JobLink where
  title : String
  uri : String
  deriving Repr, DecidableEq

/-- One classified candidate: the `{ link, score, valid }` records built in
`findRelevantJobs`. -/
structure ScoredItem where
  link : JobLink
  score : Int
  valid : Bool
  deriving Repr, DecidableEq

/-- The `badTitlePatterns` list of `src/services/geminiService.ts` (each regex is a
case-insensitive substring pattern, written here lower-cased). -/
def badTitlePatterns : List String :=
  ["not found", "error", "404", "job closed", "closed job",
   "no longer available", "login", "sign in", "search results"]

/-- The `atsDomains` list of `src/services/geminiService.ts`. -/
def atsDomains : List String :=
  ["greenhouse.io", "lever.co", "workday", "ashby", "smartrecruiters",
   "icims", "jobvite", "taleo", "bamboohr", "recruitee", "workable"]

/-- The classifier body of `findRelevantJobs` in
`src/services/geminiService.ts` (the `links.map` callback): URL-parse gate,
title gate, collection-page loop prevention, then scoring. -/
def classifyLink (targetUrl : String) (link : JobLink) : ScoredItem :=
  match parseURL link.uri with
  | none => ⟨link, -1, false⟩
  | some linkUrl =>
    let title := trimStr link.title
    if (badTitlePatterns.any fun p => strHas (lowerStr title) p) &&
        strHas (lowerStr title) "search results" then ⟨link, -1, false⟩
    else
      let normalizedLink := normalizeUrl link.uri
      let normalizedTarget := normalizeUrl targetUrl
      if normalizedLink = normalizedTarget then ⟨link, -1, false⟩
      else if startsWithStr normalizedLink normalizedTarget &&
          decide (strLen normalizedLink < strLen normalizedTarget + 5) then ⟨link, -1, false⟩
      else
        let rootDomain := getRootDomain targetUrl
        let linkHost := linkUrl.hostname
        let isRootMatch := strHas linkHost rootDomain || strHas rootDomain linkHost
        let isAts := atsDomains.any fun d => strHas linkHost d
        let titleMentionsCompany := strHas (lowerStr title) ((splitDots rootDomain).headD "")
        let base : Int :=
          if isRootMatch then 100
          else if isAts then 80
          else if titleMentionsCompany then 50
          else 10
        let score := if startsWithStr (lowerStr title) "jobs at " && !isRootMatch then base - 20 else base
        ⟨link, score, true⟩

/-- Stable insertion step: `x` goes after every already-placed element
unless it strictly precedes it under `lt`. -/
def sIns (lt : α → α → Bool) (x : α) : List α → List α
  | [] => [x]
  | y :: ys => if lt x y then x :: y :: ys else y :: sIns lt x ys

/-- Models the ES2019 stable `Array.prototype.sort` with a comparator `c`,
where `lt a b` stands for `c(a, b) < 0` ("`a` strictly precedes `b`"):
inserting the elements left to right keeps equal elements in input order,
which characterises the stable sort of a total preorder. -/
def sSort (lt : α → α → Bool) (l : List α) : List α :=
  l.foldl (fun acc x => sIns lt x acc) []

/-- The deduplicating collection loop of `findRelevantJobs`
(`src/services/geminiService.ts`): push first occurrence per exact `uri`,
break as soon as `uniqueLinks.length >= limit` (checked after each
iteration's optional push, as the `for … of` loop does). -/
def dedupLoop (limit : Nat) : List ScoredItem → List String → List JobLink → List JobLink
  | [], _, acc => acc
  | item :: rest, seen, acc =>
    if seen.contains item.link.uri then
      if limit ≤ acc.length then acc else dedupLoop limit rest seen acc
    else
      let acc' := acc ++ [item.link]
      if limit ≤ acc'.length then acc' else dedupLoop limit rest (item.link.uri :: seen) acc'

/-- The pure post-processing of one `findRelevantJobs` call
(`src/services/geminiService.ts`), applied to the raw grounding links:
classify, keep `valid`, stable-sort by score descending
(`.sort((a, b) => b.score - a.score)`), deduplicate by exact `uri`,
stop at `limit`. -/
def processLinks (targetUrl : String) (limit : Nat) (links : List JobLink) : List JobLink :=
  let scoredLinks := links.map (classifyLink targetUrl)
  let validLinks := sSort (fun a b => b.score < a.score) (scoredLinks.filter (·.valid))
  dedupLoop limit validLinks [] []






/-! ## The `src/unnamed/part_002` snapshot of the service

This snapshot of `geminiService.ts` accepts a nullable target (`USER`/
`PRESET` tasks pass a site, the `OPEN` task passes `null`), uses shorter
pattern/ATS lists, and classifies quota/key errors via
`checkForGeminiError`. -/

/-- The `badTitlePatterns` list of `src/unnamed/part_002`. -/
def badTitlePatterns2 : List String :=
  ["not found", "error", "404", "job closed", "search results"]

/-- The `atsDomains` list of `src/unnamed/part_002`. -/
def atsDomains2 : List String :=
  ["greenhouse.io", "lever.co", "workday", "ashby", "smartrecruiters", "taleo"]

/-- The `checkForGeminiError` helper of `src/unnamed/part_002`, on the error's
message string (the code reads `error.message`, or the error itself when
it is a string; both are strings here). -/
def checkForGeminiError (msg : String) : Bool :=
  strHas msg "RESOURCE_EXHAUSTED" || strHas msg "429" ||
    strHas msg "API Key is missing" || strHas msg "API_KEY_INVALID"

/-- The classifier body of `findRelevantJobs` in `src/unnamed/part_002`
(nullable target; `targetUrl = none` is the `OPEN` keyword-only task). -/
def classifyLink2 (targetUrl : Option String) (link : JobLink) : ScoredItem :=
  match parseURL link.uri with
  | none => ⟨link, -1, false⟩
  | some linkUrl =>
    let title := trimStr link.title
    if (badTitlePatterns2.any fun p => strHas (lowerStr title) p) &&
        strHas (lowerStr title) "search results" then ⟨link, -1, false⟩
    else
      match targetUrl with
      | some t =>
        if normalizeUrl link.uri = normalizeUrl t then ⟨link, -1, false⟩
        else
          let rootDomain := getRootDomain t
          let isRootMatch := strHas linkUrl.hostname rootDomain
          let isAts := atsDomains2.any fun d => strHas linkUrl.hostname d
          ⟨link, if isRootMatch then 100 else if isAts then 80 else 10, true⟩
      | none =>
        let isAts := atsDomains2.any fun d => strHas linkUrl.hostname d
        ⟨link, if isAts then 80 else 50, true⟩

/-! ## The planner of `handleProcessAll` (`src/App.tsx`) -/

/-- Task kinds of the planner in `handleProcessAll`. -/
inductive TaskType
  | user
  | preset
  | openWeb
  deriving Repr, DecidableEq

/-- One planned search task: the `{ type, url, priority, limit }` records
of `handleProcessAll`. -/
structure TaskSpec where
  ttype : TaskType
  url : Option String
  priority : Nat
  limit : Nat
  deriving Repr, DecidableEq

/-- Models `presetDistribution.set(url, (presetDistribution.get(url) || 0) + 1)`
on an insertion-ordered association list (a JavaScript `Map` keeps the
original position of an updated key and appends new keys). -/
def bump : List (String × Nat) → String → List (String × Nat)
  | [], k => [(k, 1)]
  | (k', v) :: rest, k => if k' = k then (k', v + 1) :: rest else (k', v) :: bump rest k

/-- The round-robin distribution loop of `handleProcessAll`:
`for (let i = 0; i < jobCount; i++) bump(PRESET_JOB_BOARDS[i % len])`. -/
def presetDistribution (presets : List String) (jobCount : Nat) : List (String × Nat) :=
  (List.range jobCount).foldl (fun m i => bump m (presets.getD (i % presets.length) "")) []

/-- The normalized user target of `handleProcessAll`: trim, and prefix
`https://` when it does not start with `http`; `none` when blank. -/
def userTargetUrl (targetUrl : String) : Option String :=
  let t := trimStr targetUrl
  if t = "" then none
  else some (if startsWithStr t "http" then t else "https://" ++ t)

/-- The task list built by `handleProcessAll`: optional USER task (tier 1,
full quota), one PRESET task per distribution entry unless an
already-queued task has the same url (tier 2, round-robin quota), and one
OPEN task (tier 3, full quota). -/
def buildTasks (targetUrl : String) (jobCount : Nat) (presets : List String) : List TaskSpec :=
  ((presetDistribution presets jobCount).foldl
    (fun ts e =>
      if ts.any fun t => t.url = some e.1 then ts
      else ts ++ [⟨TaskType.preset, some e.1, 2, e.2⟩])
    (match userTargetUrl targetUrl with
      | some u => [⟨TaskType.user, some u, 1, jobCount⟩]
      | none => [])) ++ [⟨TaskType.openWeb, none, 3, jobCount⟩]

/-! ## The aggregator of `handleProcessAll` (`src/App.tsx`) -/

/-- The deduplication loop of `handleProcessAll` over priority-tagged
links: keep the first occurrence per exact `uri` (no limit; the slice is
applied afterwards).  The code drops the priority tag as it pushes each
link; here the tag is kept and projected away afterwards, which yields
the same link list. -/
def dedupPairs : List (Nat × JobLink) → List String → List (Nat × JobLink) → List (Nat × JobLink)
  | [], _, acc => acc
  | (p, l) :: rest, seen, acc =>
    if seen.contains l.uri then dedupPairs rest seen acc
    else dedupPairs rest (l.uri :: seen) (acc ++ [(p, l)])

/-- Flatten the per-task results into priority-tagged links, stable-sort
by priority ascending (`allLinks.sort((a, b) => a.priority - b.priority)`)
and deduplicate by exact `uri`. -/
def aggregatePairs (results : List (Nat × List JobLink)) : List (Nat × JobLink) :=
  let allLinks := (results.map fun r => r.2.map fun l => (r.1, l)).flatten
  let sorted := sSort (fun a b => a.1 < b.1) allLinks
  dedupPairs sorted [] []

/-- The final link list of `handleProcessAll`: aggregate, then
`uniqueLinks.slice(0, jobCount)`. -/
def aggregateResults (results : List (Nat × List JobLink)) (jobCount : Nat) : List JobLink :=
  ((aggregatePairs results).map Prod.snd).take jobCount

/-! ## The orchestrator of `handleProcessAll` (`src/App.tsx`)

Each search task settles either with a result or with an error message.
The per-task `.catch` re-throws only errors whose message contains
`"RESOURCE_EXHAUSTED"` and converts every other failure into
`{ text: '', links: [] }`; `Promise.all` then rejects iff some settled
task rejected (the rejection observed first in time is modelled as the
first in list order — every rejection that can survive `settleTask`
contains `"RESOURCE_EXHAUSTED"`, so the claims below do not depend on
which one is picked).  The analysis call precedes the tasks; an error
there aborts the whole handler. -/

/-- The per-task `.catch` handler of `handleProcessAll`. -/
def settleTask : Nat × Except String (List JobLink) → Except String (Nat × List JobLink)
  | (p, .ok links) => .ok (p, links)
  | (p, .error e) =>
    if strHas e "RESOURCE_EXHAUSTED" then .error e else .ok (p, [])

/-- Models `Promise.all`: all results, or the first rejection. -/
def collectAll : List (Except String (Nat × List JobLink)) → Except String (List (Nat × List JobLink))
  | [] => .ok []
  | .error e :: _ => .error e
  | .ok r :: rest => (collectAll rest).map (r :: ·)

/-- The discovery portion of `handleProcessAll`: await the analysis, run
all tasks through the per-task handler, reject on a surviving rejection,
otherwise aggregate; an error never yields a partial link list. -/
def runDiscovery (analysis : Except String Unit)
    (taskResults : List (Nat × Except String (List JobLink))) (jobCount : Nat) :
    Except String (List JobLink) :=
  match analysis with
  | .error e => .error e
  | .ok _ =>
    match collectAll (taskResults.map settleTask) with
    | .error e => .error e
    | .ok settled => .ok (aggregateResults settled jobCount)




/-! ## Spec-side definitions

The following definitions transcribe the specification's wording (not the
code); the claim theorems compare them with the embedded code. -/

/-- The count of indices `i, i + P, i + 2·P, …` that are less than `Q`
(the round-robin quota the spec assigns to preset `i`). -/
def countIdx (i P Q : Nat) : Nat :=
  ((List.range Q).filter fun k => k % P = i).length

/-- The spec's scoring policy for a targeted task (§4.3): 100 when the
link host contains or is contained by the target root domain, else 80 for
a known ATS host, else 50 when the title mentions the company name
fragment, else 10; 20 subtracted when the title matches `^Jobs at `
case-insensitively and the host is not a root match. -/
def specScoreTargeted (t : String) (link : JobLink) : Int :=
  match parseURL link.uri with
  | none => 0
  | some u =>
    let rootDomain := getRootDomain t
    let title := trimStr link.title
    let isRootMatch := strHas u.hostname rootDomain || strHas rootDomain u.hostname
    let base : Int :=
      if isRootMatch then 100
      else if atsDomains.any fun d => strHas u.hostname d then 80
      else if strHas (lowerStr title) ((splitDots rootDomain).headD "") then 50
      else 10
    if startsWithStr (lowerStr title) "jobs at " && !isRootMatch then base - 20 else base

/-- The spec's scoring policy for the no-target open-search task: flat 50,
or 80 when the host is a known ATS (the open-search snapshot's ATS list). -/
def specScoreOpen (link : JobLink) : Int :=
  match parseURL link.uri with
  | none => 0
  | some u => if atsDomains2.any fun d => strHas u.hostname d then 80 else 50

/-- The root-domain extraction as claim C10 words it: prefix `https://` unless the
input starts with `http`; on parse success return the hostname's last two
dot-separated labels joined by `.` when there are more than two labels and
the full hostname when there are two or fewer; on failure return the
input unchanged. -/
def specRootDomain (url : String) : String :=
  match parseURL (if startsWithStr url "http" then url else "https://" ++ url) with
  | none => url
  | some u =>
    let labels := splitDots u.hostname
    if labels.length ≤ 2 then u.hostname
    else joinDots (labels.drop (labels.length - 2))

/-- The PRESET tasks among a planned task list. -/
def presetTasksOf (tasks : List TaskSpec) : List TaskSpec :=
  tasks.filter fun t => t.ttype = TaskType.preset

/-- The quotas of the PRESET tasks among a planned task list. -/
def presetQuotas (tasks : List TaskSpec) : List Nat :=
  (presetTasksOf tasks).map (·.limit)

/-! ## Helper lemmas: stable sort -/

theorem mem_sIns {lt : α → α → Bool} {x a : α} {l : List α} :
    a ∈ sIns lt x l ↔ a = x ∨ a ∈ l := by
  induction l with
  | nil => simp [sIns]
  | cons y ys ih =>
    simp only [sIns]
    split
    · simp [or_comm, or_left_comm]
    · simp [ih, or_comm, or_left_comm]

theorem pairwise_sIns {lt : α → α → Bool} {R : α → α → Prop}
    (h1 : ∀ a b, lt a b = true → R a b) (h2 : ∀ a b, lt a b = false → R b a)
    (htrans : ∀ a b c, R a b → R b c → R a c)
    {x : α} {l : List α} (hl : l.Pairwise R) : (sIns lt x l).Pairwise R := by
  induction l with
  | nil => simp [sIns]
  | cons y ys ih =>
    rw [List.pairwise_cons] at hl
    obtain ⟨hy, hys⟩ := hl
    simp only [sIns]
    split
    · rename_i hlt
      refine List.pairwise_cons.mpr ⟨?_, List.pairwise_cons.mpr ⟨hy, hys⟩⟩
      intro b hb
      rcases List.mem_cons.mp hb with rfl | hb
      · exact h1 _ _ hlt
      · exact htrans _ _ _ (h1 _ _ hlt) (hy _ hb)
    · rename_i hlt
      refine List.pairwise_cons.mpr ⟨?_, ih hys⟩
      intro b hb
      rcases mem_sIns.mp hb with rfl | hb
      · exact h2 _ _ (Bool.eq_false_iff.mpr hlt)
      · exact hy _ hb

theorem mem_sSortAux {lt : α → α → Bool} {a : α} :
    ∀ {l acc : List α}, a ∈ l.foldl (fun acc x => sIns lt x acc) acc ↔ a ∈ acc ∨ a ∈ l := by
  intro l
  induction l with
  | nil => simp
  | cons y ys ih =>
    intro acc
    simp only [List.foldl_cons, ih, mem_sIns, List.mem_cons]
    tauto

theorem mem_sSort {lt : α → α → Bool} {a : α} {l : List α} :
    a ∈ sSort lt l ↔ a ∈ l := by
  simp [sSort, mem_sSortAux]

theorem pairwise_sSortAux {lt : α → α → Bool} {R : α → α → Prop}
    (h1 : ∀ a b, lt a b = true → R a b) (h2 : ∀ a b, lt a b = false → R b a)
    (htrans : ∀ a b c, R a b → R b c → R a c) :
    ∀ {l acc : List α}, acc.Pairwise R → (l.foldl (fun acc x => sIns lt x acc) acc).Pairwise R := by
  intro l
  induction l with
  | nil => exact fun h => h
  | cons y ys ih =>
    intro acc hacc
    exact ih (pairwise_sIns h1 h2 htrans hacc)

theorem pairwise_sSort {lt : α → α → Bool} {R : α → α → Prop}
    (h1 : ∀ a b, lt a b = true → R a b) (h2 : ∀ a b, lt a b = false → R b a)
    (htrans : ∀ a b c, R a b → R b c → R a c) (l : List α) :
    (sSort lt l).Pairwise R :=
  pairwise_sSortAux h1 h2 htrans List.Pairwise.nil

/-! ## Helper lemmas: the deduplication loops -/

theorem dedupLoop_shape (limit : Nat) :
    ∀ (items : List ScoredItem) (seen : List String) (acc : List JobLink),
      ∃ s : List ScoredItem, s.Sublist items ∧
        dedupLoop limit items seen acc = acc ++ s.map (·.link) := by
  intro items
  induction items with
  | nil => exact fun seen acc => ⟨[], List.Sublist.refl _, by simp [dedupLoop]⟩
  | cons item rest ih =>
    intro seen acc
    simp only [dedupLoop]
    split
    · split
      · exact ⟨[], (List.nil_sublist rest).cons _, by simp⟩
      · obtain ⟨s, hs, he⟩ := ih seen acc
        exact ⟨s, hs.cons _, he⟩
    · split
      · exact ⟨[item], ((List.nil_sublist rest).cons₂ item), by simp⟩
      · obtain ⟨s, hs, he⟩ := ih (item.link.uri :: seen) (acc ++ [item.link])
        exact ⟨item :: s, hs.cons₂ item, by simpa using he⟩

theorem dedupLoop_length (limit : Nat) :
    ∀ (items : List ScoredItem) (seen : List String) (acc : List JobLink),
      acc.length < limit → (dedupLoop limit items seen acc).length ≤ limit := by
  intro items
  induction items with
  | nil => intro seen acc h; simp only [dedupLoop]; exact Nat.le_of_lt h
  | cons item rest ih =>
    intro seen acc h
    simp only [dedupLoop]
    split
    · split
      · omega
      · exact ih seen acc h
    · split
      · rename_i hge
        simp only [List.length_append, List.length_cons, List.length_nil] at hge ⊢
        omega
      · rename_i hge
        refine ih _ _ ?_
        simp only [List.length_append, List.length_cons, List.length_nil] at hge ⊢
        omega

theorem dedupLoop_nodup (limit : Nat) :
    ∀ (items : List ScoredItem) (seen : List String) (acc : List JobLink),
      (acc.map (·.uri)).Nodup → (∀ l ∈ acc, seen.contains l.uri = true) →
      ((dedupLoop limit items seen acc).map (·.uri)).Nodup := by
  intro items
  induction items with
  | nil => intro seen acc h _; simp only [dedupLoop]; exact h
  | cons item rest ih =>
    intro seen acc hnd hseen
    simp only [dedupLoop]
    split
    · split
      · exact hnd
      · exact ih seen acc hnd hseen
    · rename_i hnotseen
      have hnotin : item.link.uri ∉ acc.map (·.uri) := by
        intro hmem
        obtain ⟨l, hl, hu⟩ := List.mem_map.mp hmem
        rw [Bool.not_eq_true] at hnotseen
        rw [← hu] at hnotseen
        rw [hseen l hl] at hnotseen
        exact Bool.true_eq_false.mp hnotseen
      have hnd' : ((acc ++ [item.link]).map (·.uri)).Nodup := by
        simp only [List.map_append, List.map_cons, List.map_nil]
        exact List.Nodup.append hnd (List.nodup_singleton _)
          (by simpa [List.disjoint_singleton] using hnotin)
      split
      · exact hnd'
      · refine ih _ _ hnd' ?_
        intro l hl
        rcases List.mem_append.mp hl with hl | hl
        · simp only [List.contains_cons, Bool.or_eq_true]
          exact Or.inr (hseen l hl)
        · simp only [List.mem_singleton] at hl
          subst hl
          simp [List.contains_cons]

theorem dedupPairs_shape :
    ∀ (items : List (Nat × JobLink)) (seen : List String) (acc : List (Nat × JobLink)),
      ∃ s : List (Nat × JobLink), s.Sublist items ∧ dedupPairs items seen acc = acc ++ s := by
  intro items
  induction items with
  | nil => exact fun seen acc => ⟨[], List.Sublist.refl _, by simp [dedupPairs]⟩
  | cons item rest ih =>
    intro seen acc
    obtain ⟨p, l⟩ := item
    simp only [dedupPairs]
    split
    · obtain ⟨s, hs, he⟩ := ih seen acc
      exact ⟨s, hs.cons _, he⟩
    · obtain ⟨s, hs, he⟩ := ih (l.uri :: seen) (acc ++ [(p, l)])
      exact ⟨(p, l) :: s, hs.cons₂ _, by simpa using he⟩

theorem dedupPairs_nodup :
    ∀ (items : List (Nat × JobLink)) (seen : List String) (acc : List (Nat × JobLink)),
      (acc.map fun pr => pr.2.uri).Nodup → (∀ pr ∈ acc, seen.contains pr.2.uri = true) →
      ((dedupPairs items seen acc).map fun pr => pr.2.uri).Nodup := by
  intro items
  induction items with
  | nil => intro seen acc h _; simpa [dedupPairs] using h
  | cons item rest ih =>
    intro seen acc hnd hseen
    obtain ⟨p, l⟩ := item
    simp only [dedupPairs]
    split
    · exact ih seen acc hnd hseen
    · rename_i hnotseen
      have hnotin : l.uri ∉ acc.map fun pr => pr.2.uri := by
        intro hmem
        obtain ⟨pr, hpr, hu⟩ := List.mem_map.mp hmem
        rw [Bool.not_eq_true] at hnotseen
        rw [← hu] at hnotseen
        rw [hseen pr hpr] at hnotseen
        exact Bool.true_eq_false.mp hnotseen
      refine ih _ _ ?_ ?_
      · simp only [List.map_append, List.map_cons, List.map_nil]
        exact List.Nodup.append hnd (List.nodup_singleton _)
          (by simpa [List.disjoint_singleton] using hnotin)
      · intro pr hpr
        rcases List.mem_append.mp hpr with hpr | hpr
        · simp only [List.contains_cons, Bool.or_eq_true]
          exact Or.inr (hseen pr hpr)
        · simp only [List.mem_singleton] at hpr
          subst hpr
          simp [List.contains_cons]

/-! ## Helper lemmas: the classifier and the per-task pipeline -/

theorem classifyLink_link (t : String) (y : JobLink) : (classifyLink t y).link = y := by
  unfold classifyLink
  split
  · rfl
  · dsimp only
    split
    · rfl
    · split
      · rfl
      · split <;> rfl

theorem classifyLink2_link (t : Option String) (y : JobLink) : (classifyLink2 t y).link = y := by
  unfold classifyLink2
  split
  · rfl
  · dsimp only
    split
    · rfl
    · split
      · split
        · rfl
        · rfl
      · rfl

theorem mem_processLinks_valid {t : String} {lim : Nat} {links : List JobLink} {x : JobLink}
    (hx : x ∈ processLinks t lim links) : (classifyLink t x).valid = true := by
  unfold processLinks at hx
  obtain ⟨s, hs, he⟩ := dedupLoop_shape lim
    (sSort (fun a b => b.score < a.score) ((links.map (classifyLink t)).filter (·.valid))) [] []
  rw [he, List.nil_append] at hx
  obtain ⟨item, hitem, hlink⟩ := List.mem_map.mp hx
  have hmem : item ∈ (links.map (classifyLink t)).filter (·.valid) :=
    mem_sSort.mp (hs.mem hitem)
  have hvalid : item.valid = true := by
    have := List.of_mem_filter hmem
    simpa using this
  obtain ⟨y, _, hy⟩ := List.mem_map.mp (List.mem_of_mem_filter hmem)
  have hxy : x = y := by rw [← hlink, ← hy, classifyLink_link]
  rw [hxy, hy]
  exact hvalid

/-! ## Helper lemmas: the orchestrator -/

theorem settleTask_error {x : Nat × Except String (List JobLink)} {e : String}
    (h : settleTask x = .error e) : strHas e "RESOURCE_EXHAUSTED" = true := by
  obtain ⟨p, r⟩ := x
  cases r with
  | ok links => exact absurd h (by simp [settleTask])
  | error e₀ =>
    simp only [settleTask] at h
    by_cases hre : strHas e₀ "RESOURCE_EXHAUSTED" = true
    · rw [if_pos hre] at h
      cases h
      exact hre
    · rw [if_neg hre] at h
      cases h

theorem collectAll_error_of_signal :
    ∀ (pre post : List (Nat × Except String (List JobLink))) (p : Nat) (e : String),
      strHas e "RESOURCE_EXHAUSTED" = true →
      ∃ e', collectAll ((pre ++ (p, .error e) :: post).map settleTask) = .error e' ∧
        strHas e' "RESOURCE_EXHAUSTED" = true := by
  intro pre
  induction pre with
  | nil =>
    intro post p e he
    refine ⟨e, ?_, he⟩
    simp only [List.nil_append, List.map_cons]
    rw [show settleTask (p, .error e) = .error e by simp only [settleTask]; rw [if_pos he]]
    rfl
  | cons hd tl ih =>
    intro post p e he
    simp only [List.cons_append, List.map_cons]
    cases hs : settleTask hd with
    | error e₀ => exact ⟨e₀, rfl, settleTask_error hs⟩
    | ok v =>
      obtain ⟨e', he', hsig⟩ := ih post p e he
      refine ⟨e', ?_, hsig⟩
      simp only [collectAll]
      rw [he']
      rfl

theorem collectAll_ok :
    ∀ (taskResults : List (Nat × Except String (List JobLink))),
      (∀ pr ∈ taskResults, ∀ e, pr.2 = .error e → strHas e "RESOURCE_EXHAUSTED" = false) →
      ∃ v, collectAll (taskResults.map settleTask) = .ok v := by
  intro taskResults
  induction taskResults with
  | nil => exact fun _ => ⟨[], rfl⟩
  | cons hd tl ih =>
    intro h
    obtain ⟨v, hv⟩ := ih fun pr hpr => h pr (List.mem_cons_of_mem _ hpr)
    obtain ⟨p, r⟩ := hd
    cases r with
    | ok links => exact ⟨(p, links) :: v, by simp [settleTask, collectAll, hv, Except.map]⟩
    | error e =>
      have hre : strHas e "RESOURCE_EXHAUSTED" = false :=
        h (p, .error e) (List.mem_cons_self _ _) _ rfl
      refine ⟨(p, []) :: v, ?_⟩
      simp only [List.map_cons]
      rw [show settleTask (p, .error e) = .ok (p, []) by
        simp only [settleTask]; rw [if_neg (by rw [hre]; exact Bool.false_ne_true)]]
      simp [collectAll, hv, Except.map]

/-! ## Claim C10: `getRootDomain` -/

/-- C10: `getRootDomain` is total (it is a Lean function); whenever the
input — prefixed with `https://` when it does not already start with
`http` — parses as a URL it returns the hostname's last two dot-separated
labels when the hostname has more than two labels (so
`careers.bbc.co.uk` yields `co.uk`, not `bbc.co.uk`) and the full
hostname otherwise, and when parsing fails it returns the input
unchanged: `getRootDomain` coincides with the spec transcription
`specRootDomain` on every input. -/
theorem getRootDomain_meets_spec :
    (∀ url, getRootDomain url = specRootDomain url) ∧
      getRootDomain "careers.bbc.co.uk" = "co.uk" ∧
      getRootDomain "careers.bbc.co.uk" ≠ "bbc.co.uk" ∧
      getRootDomain "x.ai" = "x.ai" ∧
      getRootDomain "http" = "http" := by
  refine ⟨fun url => ?_, by decide, by decide, by decide, by decide⟩
  unfold getRootDomain specRootDomain
  cases parseURL (if startsWithStr url "http" then url else "https://" ++ url) with
  | none => rfl
  | some u =>
    simp only []
    by_cases h : (splitDots u.hostname).length > 2
    · rw [if_pos h, if_neg (by omega)]
    · rw [if_neg h, if_pos (by omega)]

/-! ## Claim C6: the scoring policy -/

/-- C6: for every candidate that passes the validity gate, the targeted
classifier's score is exactly the spec's 100/80/50/10 policy with the
`^Jobs at ` penalty of 20 (`specScoreTargeted`), and the no-target
open-search classifier's score is exactly flat 50, or 80 on a known ATS
host (`specScoreOpen`). -/
theorem classifier_score_meets_spec :
    ∀ (t : String) (link : JobLink),
      ((classifyLink t link).valid = true →
        (classifyLink t link).score = specScoreTargeted t link) ∧
      ((classifyLink2 none link).valid = true →
        (classifyLink2 none link).score = specScoreOpen link) := by
  intro t link
  constructor
  · unfold classifyLink specScoreTargeted
    cases hp : parseURL link.uri with
    | none => intro h; cases h
    | some u =>
      simp only []
      split
      · intro h; cases h
      · split
        · intro h; cases h
        · split
          · intro h; cases h
          · intro _
            rfl
  · unfold classifyLink2 specScoreOpen
    cases hp : parseURL link.uri with
    | none => intro h; cases h
    | some u =>
      simp only []
      split
      · intro h; cases h
      · intro _
        rfl

/-- Witness for C6 at concrete inputs: a root-domain match scores 100 and
an open-search ATS link scores 80. -/
theorem classifier_score_meets_spec_witness :
    (classifyLink "https://acme.com" ⟨"Senior Backend Engineer - Job ID 48213", "https://acme.com/job/48213"⟩).valid = true ∧
    (classifyLink "https://acme.com" ⟨"Senior Backend Engineer - Job ID 48213", "https://acme.com/job/48213"⟩).score = 100 ∧
    (classifyLink2 none ⟨"Platform Engineer", "https://boards.greenhouse.io/x/jobs/1"⟩).valid = true ∧
    (classifyLink2 none ⟨"Platform Engineer", "https://boards.greenhouse.io/x/jobs/1"⟩).score = 80 := by
  refine ⟨by decide, ?_, by decide, ?_⟩
  · rw [(classifier_score_meets_spec "https://acme.com"
      ⟨"Senior Backend Engineer - Job ID 48213", "https://acme.com/job/48213"⟩).1 (by decide)]
    decide
  · rw [(classifier_score_meets_spec "https://acme.com"
      ⟨"Platform Engineer", "https://boards.greenhouse.io/x/jobs/1"⟩).2 (by decide)]
    decide

/-! ## Claim C1: the title denylist -/

/-- C1 counterexample: a candidate titled `"Page not found"` matches the
denylist pattern `not found` (and `error`, `404`, … would behave the
same), yet the classifier marks it `valid = true` and it appears in the
discovery result — the code only rejects on the title when it contains
`"search results"`. -/
theorem denylist_counterexample :
    strHas (lowerStr (trimStr "Page not found")) "not found" = true ∧
    (classifyLink "https://acme.com/careers"
      ⟨"Page not found", "https://jobs.acme.com/careers/123"⟩).valid = true ∧
    processLinks "https://acme.com/careers" 3
      [⟨"Page not found", "https://jobs.acme.com/careers/123"⟩] =
      [⟨"Page not found", "https://jobs.acme.com/careers/123"⟩] := by
  refine ⟨by decide, by decide, by decide⟩

/-- C1 (amended): a candidate whose trimmed title contains
`"search results"` case-insensitively is marked `valid = false` and never
appears in a discovery result; the remaining denylist patterns alone do
not invalidate a title. -/
theorem search_results_title_excluded :
    ∀ (t : String) (lim : Nat) (links : List JobLink) (link : JobLink),
      strHas (lowerStr (trimStr link.title)) "search results" = true →
      (classifyLink t link).valid = false ∧ link ∉ processLinks t lim links := by
  intro t lim links link hbad
  have hany : (badTitlePatterns.any fun p => strHas (lowerStr (trimStr link.title)) p) = true :=
    List.any_eq_true.mpr ⟨"search results", by simp [badTitlePatterns], hbad⟩
  have hvalid : (classifyLink t link).valid = false := by
    unfold classifyLink
    cases hp : parseURL link.uri with
    | none => rfl
    | some u =>
      simp only []
      split
      · rfl
      · rename_i hcond
        exact absurd (by rw [hany, hbad]; rfl) hcond
  refine ⟨hvalid, fun hmem => ?_⟩
  rw [mem_processLinks_valid hmem] at hvalid
  cases hvalid

/-- Witness for the amended C1: the spec's own example title
`"Search Results | Careers"` is filtered. -/
theorem search_results_title_excluded_witness :
    strHas (lowerStr (trimStr "Search Results | Careers")) "search results" = true ∧
    (classifyLink "https://acme.com/careers"
      ⟨"Search Results | Careers", "https://jobs.acme.com/careers/123"⟩).valid = false ∧
    ⟨"Search Results | Careers", "https://jobs.acme.com/careers/123"⟩ ∉
      processLinks "https://acme.com/careers" 3
        [⟨"Search Results | Careers", "https://jobs.acme.com/careers/123"⟩] := by
  refine ⟨by decide, ?_, ?_⟩
  · exact (search_results_title_excluded "https://acme.com/careers" 3
      [⟨"Search Results | Careers", "https://jobs.acme.com/careers/123"⟩]
      ⟨"Search Results | Careers", "https://jobs.acme.com/careers/123"⟩ (by decide)).1
  · exact (search_results_title_excluded "https://acme.com/careers" 3
      [⟨"Search Results | Careers", "https://jobs.acme.com/careers/123"⟩]
      ⟨"Search Results | Careers", "https://jobs.acme.com/careers/123"⟩ (by decide)).2

/-! ## Claim C8: the self-reference guard -/

/-- C8: a candidate whose normalized uri equals the normalized task
target, or equals it extended by at most 4 extra trailing characters, is
marked `valid = false` and never appears in the task's result. -/
theorem self_reference_guard :
    ∀ (t : String) (lim : Nat) (links : List JobLink) (link : JobLink),
      (normalizeUrl link.uri = normalizeUrl t ∨
        (startsWithStr (normalizeUrl link.uri) (normalizeUrl t) = true ∧
          strLen (normalizeUrl link.uri) < strLen (normalizeUrl t) + 5)) →
      (classifyLink t link).valid = false ∧ link ∉ processLinks t lim links := by
  intro t lim links link hguard
  have hvalid : (classifyLink t link).valid = false := by
    unfold classifyLink
    cases hp : parseURL link.uri with
    | none => rfl
    | some u =>
      simp only []
      split
      · rfl
      · split
        · rfl
        · rename_i hne
          split
          · rfl
          · rename_i hpre
            rcases hguard with heq | ⟨hsw, hlt⟩
            · exact absurd heq hne
            · exact absurd (by rw [hsw, decide_eq_true hlt]; rfl) hpre
  refine ⟨hvalid, fun hmem => ?_⟩
  rw [mem_processLinks_valid hmem] at hvalid
  cases hvalid

/-- Witness for C8: the target itself with a trailing slash is excluded. -/
theorem self_reference_guard_witness :
    (normalizeUrl "https://acme.com/careers/" = normalizeUrl "https://acme.com/careers" ∨
      (startsWithStr (normalizeUrl "https://acme.com/careers/") (normalizeUrl "https://acme.com/careers") = true ∧
        strLen (normalizeUrl "https://acme.com/careers/") < strLen (normalizeUrl "https://acme.com/careers") + 5)) ∧
    (classifyLink "https://acme.com/careers"
      ⟨"Careers at Acme", "https://acme.com/careers/"⟩).valid = false ∧
    ⟨"Careers at Acme", "https://acme.com/careers/"⟩ ∉
      processLinks "https://acme.com/careers" 3
        [⟨"Careers at Acme", "https://acme.com/careers/"⟩] := by
  refine ⟨Or.inl (by decide), ?_, ?_⟩
  · exact (self_reference_guard "https://acme.com/careers" 3
      [⟨"Careers at Acme", "https://acme.com/careers/"⟩]
      ⟨"Careers at Acme", "https://acme.com/careers/"⟩ (Or.inl (by decide))).1
  · exact (self_reference_guard "https://acme.com/careers" 3
      [⟨"Careers at Acme", "https://acme.com/careers/"⟩]
      ⟨"Careers at Acme", "https://acme.com/careers/"⟩ (Or.inl (by decide))).2

/-! ## Claim C2: uniqueness of result uris -/

/-- C2 counterexample: two candidates whose uris differ only by a
`"www."` prefix — so their normalized uris coincide — both appear in one
discovery result, because the code deduplicates by the exact uri string. -/
theorem normalized_dedup_counterexample :
    normalizeUrl "https://example.com/job/1" = normalizeUrl "https://www.example.com/job/1" ∧
    "https://example.com/job/1" ≠ "https://www.example.com/job/1" ∧
    aggregateResults [(2, processLinks "https://acme.com/careers" 5
        [⟨"Engineer One", "https://example.com/job/1"⟩,
         ⟨"Engineer Two", "https://www.example.com/job/1"⟩])] 5 =
      [⟨"Engineer One", "https://example.com/job/1"⟩,
       ⟨"Engineer Two", "https://www.example.com/job/1"⟩] := by
  refine ⟨by decide, by decide, by decide⟩

/-- C2 (amended): within one discovery response no two `JobLink`s share
the same *exact* uri string — both in each task's own result and in the
aggregated result; uris that differ only in scheme case, a `www.` prefix
or a trailing slash are distinct for this purpose. -/
theorem result_uris_nodup :
    (∀ (results : List (Nat × List JobLink)) (jobCount : Nat),
        ((aggregateResults results jobCount).map (·.uri)).Nodup) ∧
      ∀ (t : String) (lim : Nat) (links : List JobLink),
        ((processLinks t lim links).map (·.uri)).Nodup := by
  constructor
  · intro results jobCount
    unfold aggregateResults
    rw [← List.map_take, List.map_map]
    refine List.Nodup.sublist (List.Sublist.map _ (List.take_sublist _ _)) ?_
    exact dedupPairs_nodup _ [] [] (by simp) (by simp)
  · intro t lim links
    unfold processLinks
    exact dedupLoop_nodup lim _ [] [] (by simp) (by simp)

/-! ## Claim C3: result ordering -/

/-- C3 counterexample: two tasks share tier 2; the aggregated result keeps
task order within the tier, so a score-10 link from the first task
precedes a score-80 link from the second — within-tier score ordering
fails across tasks. -/
theorem tier_score_order_counterexample :
    aggregateResults
        [(2, processLinks "https://acme.com/careers" 1
            [⟨"Interesting role", "https://randomsite.org/foo"⟩]),
         (2, processLinks "https://beta.com/careers" 1
            [⟨"Platform Engineer", "https://boards.greenhouse.io/beta/jobs/1"⟩])] 5 =
      [⟨"Interesting role", "https://randomsite.org/foo"⟩,
       ⟨"Platform Engineer", "https://boards.greenhouse.io/beta/jobs/1"⟩] ∧
    (classifyLink "https://acme.com/careers"
      ⟨"Interesting role", "https://randomsite.org/foo"⟩).score = 10 ∧
    (classifyLink "https://beta.com/careers"
      ⟨"Platform Engineer", "https://boards.greenhouse.io/beta/jobs/1"⟩).score = 80 := by
  refine ⟨by decide, by decide, by decide⟩

/-- C3 (amended): in the aggregated result the priority tiers are
non-decreasing (for `i < j`, `tier i ≤ tier j`), and within one task's
own result the classifier scores are non-increasing; across different
tasks sharing a tier no score ordering is guaranteed. -/
theorem result_ordering :
    (∀ (results : List (Nat × List JobLink)) (jobCount : Nat),
        ((aggregatePairs results).take jobCount).Pairwise fun a b => a.1 ≤ b.1) ∧
      ∀ (t : String) (lim : Nat) (links : List JobLink),
        (processLinks t lim links).Pairwise fun a b =>
          (classifyLink t b).score ≤ (classifyLink t a).score := by
  constructor
  · intro results jobCount
    refine List.Pairwise.sublist (List.take_sublist _ _) ?_
    unfold aggregatePairs
    obtain ⟨s, hs, he⟩ := dedupPairs_shape
      (sSort (fun a b => a.1 < b.1)
        ((results.map fun r => r.2.map fun l => (r.1, l)).flatten)) [] []
    rw [he, List.nil_append]
    refine List.Pairwise.sublist hs ?_
    refine pairwise_sSort ?_ ?_ ?_ _
    · intro a b h
      exact Nat.le_of_lt (of_decide_eq_true h)
    · intro a b h
      exact Nat.le_of_not_lt fun hc => (of_decide_eq_false h) hc
    · exact fun a b c => Nat.le_trans
  · intro t lim links
    unfold processLinks
    obtain ⟨s, hs, he⟩ := dedupLoop_shape lim
      (sSort (fun a b => b.score < a.score)
        ((links.map (classifyLink t)).filter (·.valid))) [] []
    rw [he, List.nil_append]
    rw [List.pairwise_map]
    have hsorted : (sSort (fun a b => b.score < a.score)
        ((links.map (classifyLink t)).filter (·.valid))).Pairwise
        (fun a b : ScoredItem => b.score ≤ a.score) := by
      refine pairwise_sSort ?_ ?_ ?_ _
      · intro a b h
        exact Int.le_of_lt (of_decide_eq_true h)
      · intro a b h
        exact Int.not_lt.mp fun hc => (of_decide_eq_false h) hc
      · exact fun a b c hab hbc => Int.le_trans hbc hab
    have hps : s.Pairwise (fun a b : ScoredItem => b.score ≤ a.score) :=
      List.Pairwise.sublist hs hsorted
    refine hps.imp_of_mem ?_
    intro a b ha hb h
    have hc : ∀ x ∈ s, classifyLink t x.link = x := by
      intro x hx
      have hx' : x ∈ (links.map (classifyLink t)).filter (·.valid) :=
        mem_sSort.mp (hs.mem hx)
      obtain ⟨y, _, hy⟩ := List.mem_map.mp (List.mem_of_mem_filter hx')
      rw [← hy, classifyLink_link, hy]
    rw [hc a ha, hc b hb]
    exact h

/-! ## Claim C7: quota bounds -/

/-- C7: the aggregated discovery result never exceeds `totalQuota`
(taken in `[1, 20]`), and each task's own result never exceeds that
task's `resultQuota`. -/
theorem quota_bounds :
    ∀ (results : List (Nat × List JobLink)) (jobCount : Nat)
      (t : String) (lim : Nat) (links : List JobLink),
      1 ≤ jobCount → jobCount ≤ 20 → 1 ≤ lim →
      (aggregateResults results jobCount).length ≤ jobCount ∧
        (processLinks t lim links).length ≤ lim := by
  intro results jobCount t lim links h1 _ h3
  constructor
  · exact List.length_take_le _ _
  · unfold processLinks
    exact dedupLoop_length lim _ [] [] (by simpa using h3)

/-- Witness for C7 at a concrete quota. -/
theorem quota_bounds_witness :
    1 ≤ 5 ∧ 5 ≤ 20 ∧ 1 ≤ 2 ∧
    ((aggregateResults [(2, [⟨"a", "https://x.io/j/1"⟩])] 5).length ≤ 5 ∧
      (processLinks "https://acme.com" 2
        [⟨"Role A", "https://x.io/j/1"⟩, ⟨"Role B", "https://x.io/j/2"⟩,
         ⟨"Role C", "https://x.io/j/3"⟩]).length ≤ 2) := by
  exact ⟨by decide, by decide, by decide,
    quota_bounds [(2, [⟨"a", "https://x.io/j/1"⟩])] 5 "https://acme.com" 2
      [⟨"Role A", "https://x.io/j/1"⟩, ⟨"Role B", "https://x.io/j/2"⟩,
       ⟨"Role C", "https://x.io/j/3"⟩] (by decide) (by decide) (by decide)⟩

/-! ## Claim C4: quota-exhaustion propagation -/

/-- C4 counterexample: a bare `"429"` failure is a quota/billing signal by
the code's own `checkForGeminiError`, yet the orchestrator's per-task
handler does not re-throw it (the message lacks `"RESOURCE_EXHAUSTED"`):
the discovery request succeeds with the failed task downgraded to zero
candidates instead of rejecting. -/
theorem quota_signal_429_downgraded :
    checkForGeminiError "429" = true ∧
      runDiscovery (.ok ()) [(2, .error "429"), (3, .ok [⟨"Role", "https://x.io/j/1"⟩])] 5 =
        .ok [⟨"Role", "https://x.io/j/1"⟩] :=
  ⟨by decide, rfl⟩

/-- C4 (amended): if any task fails with an error whose message contains
`"RESOURCE_EXHAUSTED"`, the whole discovery request rejects with such an
error and returns no partial result, even if every other task would have
succeeded; quota-type signals without that substring (e.g. a bare `429`)
are instead downgraded to zero candidates for that task. -/
theorem resource_exhausted_propagates :
    ∀ (pre post : List (Nat × Except String (List JobLink))) (p : Nat) (e : String) (jc : Nat),
      strHas e "RESOURCE_EXHAUSTED" = true →
      ∃ e', runDiscovery (.ok ()) (pre ++ (p, .error e) :: post) jc = .error e' ∧
        strHas e' "RESOURCE_EXHAUSTED" = true := by
  intro pre post p e jc he
  obtain ⟨e', he', hsig⟩ := collectAll_error_of_signal pre post p e he
  refine ⟨e', ?_, hsig⟩
  unfold runDiscovery
  rw [he']

/-- Witness for the amended C4: a USER-task quota failure rejects the
whole request while the OPEN task would have succeeded. -/
theorem resource_exhausted_propagates_witness :
    strHas "quota: RESOURCE_EXHAUSTED" "RESOURCE_EXHAUSTED" = true ∧
      ∃ e', runDiscovery (.ok ())
          ([] ++ (1, .error "quota: RESOURCE_EXHAUSTED") ::
            [(3, .ok [⟨"Role", "https://x.io/j/1"⟩])]) 5 = .error e' ∧
        strHas e' "RESOURCE_EXHAUSTED" = true :=
  ⟨by decide, resource_exhausted_propagates [] [(3, .ok [⟨"Role", "https://x.io/j/1"⟩])] 1
    "quota: RESOURCE_EXHAUSTED" 5 (by decide)⟩

/-! ## Claim C9: missing-credential handling -/

/-- C9 counterexample: the missing-API-key error message — a
configuration error by the code's own `checkForGeminiError` — raised
inside every search task is absorbed by the per-task handler (it lacks
`"RESOURCE_EXHAUSTED"`), so discovery returns an empty-but-successful
result instead of surfacing the configuration error. -/
theorem missing_key_absorbed :
    checkForGeminiError "API Key is missing. Please check your environment configuration." = true ∧
      runDiscovery (.ok ())
        [(1, .error "API Key is missing. Please check your environment configuration."),
         (2, .error "API Key is missing. Please check your environment configuration."),
         (3, .error "API Key is missing. Please check your environment configuration.")] 5 =
        .ok [] :=
  ⟨by decide, rfl⟩

/-- C9 (amended): a missing-credential (or any other) error raised by the
analysis call that precedes the search tasks aborts the whole
`handleProcessAll` run with that error and no result; but an error raised
inside an individual search task whose message does not contain
`"RESOURCE_EXHAUSTED"` — the missing-key message included — is absorbed
at the task boundary and discovery completes successfully. -/
theorem config_error_handling :
    (∀ (taskResults : List (Nat × Except String (List JobLink))) (jc : Nat) (e : String),
        runDiscovery (.error e) taskResults jc = .error e) ∧
      ∀ (taskResults : List (Nat × Except String (List JobLink))) (jc : Nat),
        (∀ pr ∈ taskResults, ∀ e, pr.2 = .error e → strHas e "RESOURCE_EXHAUSTED" = false) →
        ∃ links, runDiscovery (.ok ()) taskResults jc = .ok links := by
  constructor
  · intro _ _ _
    rfl
  · intro taskResults jc h
    obtain ⟨v, hv⟩ := collectAll_ok taskResults h
    exact ⟨aggregateResults v jc, by unfold runDiscovery; rw [hv]⟩

/-- Witness for the amended C9 at concrete inputs. -/
theorem config_error_handling_witness :
    runDiscovery (.error "API Key is missing. Please check your environment configuration.") [] 5 =
      .error "API Key is missing. Please check your environment configuration." ∧
    ∃ links, runDiscovery (.ok ()) [(1, .error "network down")] 5 = .ok links := by
  refine ⟨config_error_handling.1 [] 5 _, config_error_handling.2 [(1, .error "network down")] 5 ?_⟩
  intro pr hpr e he
  rw [List.mem_singleton] at hpr
  subst hpr
  cases he
  decide

/-! ## Helper lemmas: the round-robin distribution -/

theorem bump_sum (L : List (String × Nat)) (k : String) :
    ((bump L k).map Prod.snd).sum = (L.map Prod.snd).sum + 1 := by
  induction L with
  | nil => simp [bump]
  | cons hd tl ih =>
    obtain ⟨k', v⟩ := hd
    simp only [bump]
    split
    · simp only [List.map_cons, List.sum_cons]
      omega
    · simp only [List.map_cons, List.sum_cons, ih]
      omega

theorem bump_map_nodup {γ : Type} (f g : γ → String × Nat) :
    ∀ (l : List γ) (j : γ), j ∈ l → (l.map fun x => (f x).1).Nodup →
      g j = ((f j).1, (f j).2 + 1) → (∀ x ∈ l, x ≠ j → g x = f x) →
      bump (l.map f) (f j).1 = l.map g := by
  intro l
  induction l with
  | nil => intro j hj; cases hj
  | cons a tl ih =>
    intro j hj hnd hat hoff
    have hnd2 : (∀ x ∈ tl, ¬(f x).1 = (f a).1) ∧ ((tl.map fun x => (f x).1).Nodup) := by
      simpa using hnd
    rcases List.mem_cons.mp hj with rfl | hjtl
    · simp only [List.map_cons, bump, eq_self_iff_true, if_true]
      rw [hat]
      congr 1
      apply List.map_congr_left
      intro x hx
      refine (hoff x (List.mem_cons_of_mem _ hx) ?_).symm
      intro hxj
      subst hxj
      exact hnd2.1 x hx rfl
    · have hkey : (f a).1 ≠ (f j).1 := fun hcontra => hnd2.1 j hjtl hcontra.symm
      simp only [List.map_cons, bump, if_neg hkey]
      rw [hoff a (List.mem_cons_self _ _) (fun h => hkey (h ▸ rfl)),
        ih j hjtl hnd2.2 hat fun x hx => hoff x (List.mem_cons_of_mem _ hx)]

theorem bump_of_not_mem : ∀ {L : List (String × Nat)} {k : String},
    (∀ p ∈ L, p.1 ≠ k) → bump L k = L ++ [(k, 1)] := by
  intro L
  induction L with
  | nil => intro k _; rfl
  | cons hd tl ih =>
    intro k h
    obtain ⟨k', v⟩ := hd
    simp only [bump]
    rw [if_neg (h (k', v) (List.mem_cons_self _ _)), List.cons_append,
      ih fun p hp => h p (List.mem_cons_of_mem _ hp)]

theorem addPresets_eq :
    ∀ (entries : List (String × Nat)) (base : List TaskSpec),
      (entries.map Prod.fst).Nodup →
      entries.foldl
          (fun ts e =>
            if ts.any fun t => t.url = some e.1 then ts
            else ts ++ [⟨TaskType.preset, some e.1, 2, e.2⟩])
          base =
        base ++ ((entries.filter fun e => !(base.any fun t => t.url = some e.1)).map
          fun e => (⟨TaskType.preset, some e.1, 2, e.2⟩ : TaskSpec)) := by
  intro entries
  induction entries with
  | nil => intro base _; simp
  | cons e tl ih =>
    intro base hnd
    have hcons : e.1 ∉ tl.map Prod.fst ∧ (tl.map Prod.fst).Nodup := by
      rw [List.map_cons] at hnd
      exact List.nodup_cons.mp hnd
    simp only [List.foldl_cons]
    by_cases hb : (base.any fun t => t.url = some e.1) = true
    · rw [if_pos hb, ih _ hcons.2, List.filter_cons, if_neg (by simp [hb])]
    · rw [if_neg hb, ih _ hcons.2, List.filter_cons,
        if_pos (by simp [Bool.eq_false_iff.mpr hb])]
      have hfilter : (tl.filter fun x =>
          !((base ++ [(⟨TaskType.preset, some e.1, 2, e.2⟩ : TaskSpec)]).any
            fun t => t.url = some x.1)) =
          tl.filter fun x => !(base.any fun t => t.url = some x.1) := by
        apply List.filter_congr
        intro x hx
        simp only [List.any_append, List.any_cons, List.any_nil, Bool.or_false]
        have hz : decide ((⟨TaskType.preset, some e.1, 2, e.2⟩ : TaskSpec).url = some x.1) =
            false := by
          simp only [decide_eq_false_iff_not]
          intro hcontra
          injection hcontra with hcontra
          exact hcons.1 (List.mem_map.mpr ⟨x, hx, hcontra.symm⟩)
        rw [hz, Bool.or_false]
      rw [hfilter, List.map_cons, List.append_assoc, List.singleton_append]

theorem presetDistribution_succ (presets : List String) (Q : Nat) :
    presetDistribution presets (Q + 1) =
      bump (presetDistribution presets Q) (presets.getD (Q % presets.length) "") := by
  unfold presetDistribution
  rw [List.range_succ, List.foldl_append]
  rfl

theorem presetDistribution_sum (presets : List String) :
    ∀ Q, ((presetDistribution presets Q).map Prod.snd).sum = Q := by
  intro Q
  induction Q with
  | zero => rfl
  | succ n ih => rw [presetDistribution_succ, bump_sum, ih]

theorem countIdx_succ (i P Q : Nat) :
    countIdx i P (Q + 1) = countIdx i P Q + if Q % P = i then 1 else 0 := by
  unfold countIdx
  rw [List.range_succ, List.filter_append, List.length_append]
  by_cases h : Q % P = i <;> simp [h]

theorem countIdx_zero_of_le {i P Q : Nat} (h : Q ≤ i) : countIdx i P Q = 0 := by
  unfold countIdx
  rw [List.length_eq_zero, List.filter_eq_nil_iff]
  intro a ha
  have haQ : a < Q := List.mem_range.mp ha
  have hmle := Nat.mod_le a P
  simp only [decide_eq_true_eq]
  omega

theorem countIdx_formula {i P : Nat} (hP : 0 < P) (hi : i < P) :
    ∀ Q, countIdx i P Q = Q / P + if i < Q % P then 1 else 0 := by
  intro Q
  induction Q with
  | zero => simp [countIdx]
  | succ n ih =>
    rw [countIdx_succ, ih]
    have hd := Nat.div_add_mod n P
    have hm : n % P < P := Nat.mod_lt _ hP
    rcases Nat.lt_or_ge (n % P + 1) P with hc | hc
    · have he : n + 1 = (n % P + 1) + P * (n / P) := by omega
      have h1 : (n + 1) % P = n % P + 1 := by
        rw [he, Nat.add_mul_mod_self_left, Nat.mod_eq_of_lt hc]
      have h2 : (n + 1) / P = n / P := by
        rw [he, Nat.add_mul_div_left _ _ hP, Nat.div_eq_of_lt hc, Nat.zero_add]
      rw [h1, h2]
      split_ifs <;> omega
    · have hP1 : n % P + 1 = P := by omega
      have he : n + 1 = P * (n / P + 1) := by rw [Nat.mul_add, Nat.mul_one]; omega
      have h1 : (n + 1) % P = 0 := by rw [he]; exact Nat.mul_mod_right _ _
      have h2 : (n + 1) / P = n / P + 1 := by rw [he]; exact Nat.mul_div_cancel_left _ hP
      rw [h1, h2]
      split_ifs <;> omega

theorem getD_keys_nodup (presets : List String) (hnd : presets.Nodup) :
    ∀ {m : Nat}, m ≤ presets.length →
      ((List.range m).map fun i => presets.getD i "").Nodup := by
  intro m hm
  refine List.Nodup.map_on ?_ (List.nodup_range m)
  intro i hi j hj hij
  have hi' : i < presets.length := lt_of_lt_of_le (List.mem_range.mp hi) hm
  have hj' : j < presets.length := lt_of_lt_of_le (List.mem_range.mp hj) hm
  rw [List.getD_eq_getElem _ _ hi', List.getD_eq_getElem _ _ hj'] at hij
  exact (List.Nodup.getElem_inj_iff hnd).mp hij

theorem presetDistribution_closed (presets : List String) (hnd : presets.Nodup)
    (hP : presets ≠ []) :
    ∀ Q, presetDistribution presets Q =
      (List.range (min Q presets.length)).map fun i =>
        (presets.getD i "", countIdx i presets.length Q) := by
  have hP0 : 0 < presets.length := List.length_pos.mpr hP
  intro Q
  induction Q with
  | zero => simp [presetDistribution]
  | succ n ih =>
    rw [presetDistribution_succ, ih]
    rcases Nat.lt_or_ge n presets.length with hlt | hge
    · have hmod : n % presets.length = n := Nat.mod_eq_of_lt hlt
      have hmin : min n presets.length = n := Nat.min_eq_left (Nat.le_of_lt hlt)
      have hmin' : min (n + 1) presets.length = n + 1 := Nat.min_eq_left hlt
      rw [hmod, hmin, hmin']
      have hne : ∀ p ∈ (List.range n).map fun i =>
          (presets.getD i "", countIdx i presets.length n), p.1 ≠ presets.getD n "" := by
        intro p hp
        obtain ⟨i, hi, rfl⟩ := List.mem_map.mp hp
        have hiR : i < n := List.mem_range.mp hi
        dsimp only
        rw [List.getD_eq_getElem _ _ (lt_trans hiR hlt), List.getD_eq_getElem _ _ hlt]
        intro hcontra
        have := (List.Nodup.getElem_inj_iff hnd).mp hcontra
        omega
      rw [bump_of_not_mem hne, List.range_succ, List.map_append]
      congr 1
      · apply List.map_congr_left
        intro i hi
        have hiR : i < n := List.mem_range.mp hi
        rw [countIdx_succ, hmod, if_neg (by omega), Nat.add_zero]
      · simp only [List.map_cons, List.map_nil]
        rw [countIdx_succ, hmod, if_pos rfl, countIdx_zero_of_le (Nat.le_refl n)]
    · have hmin : min n presets.length = presets.length := Nat.min_eq_right hge
      have hmin' : min (n + 1) presets.length = presets.length :=
        Nat.min_eq_right (Nat.le_trans hge (Nat.le_succ n))
      rw [hmin, hmin']
      have hrP : n % presets.length < presets.length := Nat.mod_lt _ hP0
      have hkey : presets.getD (n % presets.length) "" =
          ((fun i => (presets.getD i "", countIdx i presets.length n)) (n % presets.length)).1 := rfl
      rw [hkey]
      refine bump_map_nodup _ _ (List.range presets.length) (n % presets.length)
        (List.mem_range.mpr hrP) ?_ ?_ ?_
      · exact getD_keys_nodup presets hnd (Nat.le_refl _)
      · dsimp only
        rw [countIdx_succ, if_pos rfl]
      · intro i _ hne
        dsimp only
        rw [countIdx_succ, if_neg fun h => hne h.symm, Nat.add_zero]

/-! ## Claim C5: the planner's round-robin distribution -/

/-- C5: for a preset list of length `P` and any `totalQuota` `Q` in
`[1, 20]`, the planner's PRESET tasks are exactly one task per preset
index `i < min Q P` whose preset is not the already-queued user target,
with quota `countIdx i P Q` — the count of indices `i, i + P, i + 2·P, …`
below `Q`; that quota is `0` exactly for the omitted presets (`i ≥ Q`);
and when no user URL claims a preset, the preset quotas sum to `Q` and no
two of them differ by more than `1`. -/
theorem planner_round_robin :
    ∀ (presets : List String) (targetUrl : String) (Q : Nat),
      presets ≠ [] → presets.Nodup → 1 ≤ Q → Q ≤ 20 →
      (presetTasksOf (buildTasks targetUrl Q presets) =
          ((List.range (min Q presets.length)).filter fun i =>
              !decide (userTargetUrl targetUrl = some (presets.getD i ""))).map
            fun i => ⟨TaskType.preset, some (presets.getD i ""), 2,
              countIdx i presets.length Q⟩) ∧
        (∀ i, i < presets.length → (countIdx i presets.length Q = 0 ↔ Q ≤ i)) ∧
        ((∀ p ∈ presets, userTargetUrl targetUrl ≠ some p) →
          (presetQuotas (buildTasks targetUrl Q presets)).sum = Q ∧
            ∀ a ∈ presetQuotas (buildTasks targetUrl Q presets),
              ∀ b ∈ presetQuotas (buildTasks targetUrl Q presets), a ≤ b + 1) := by
  intro presets targetUrl Q hP hnd hQ1 _
  have hP0 : 0 < presets.length := List.length_pos.mpr hP
  have hdist := presetDistribution_closed presets hnd hP Q
  have hkeysnd : ((presetDistribution presets Q).map Prod.fst).Nodup := by
    rw [hdist, List.map_map]
    have hcomp : (Prod.fst ∘ fun i => (presets.getD i "", countIdx i presets.length Q)) =
        fun i => presets.getD i "" := rfl
    rw [hcomp]
    exact getD_keys_nodup presets hnd (min_le_right _ _)
  have hconj1 : presetTasksOf (buildTasks targetUrl Q presets) =
      ((List.range (min Q presets.length)).filter fun i =>
          !decide (userTargetUrl targetUrl = some (presets.getD i ""))).map
        fun i => ⟨TaskType.preset, some (presets.getD i ""), 2,
          countIdx i presets.length Q⟩ := by
    unfold buildTasks
    rw [addPresets_eq _ _ hkeysnd]
    unfold presetTasksOf
    rw [List.filter_append, List.filter_append]
    have hbase : ((match userTargetUrl targetUrl with
        | some u => [(⟨TaskType.user, some u, 1, Q⟩ : TaskSpec)]
        | none => ([] : List TaskSpec)).filter fun t : TaskSpec => t.ttype = TaskType.preset) = [] := by
      cases userTargetUrl targetUrl <;> rfl
    have hopen : (([(⟨TaskType.openWeb, none, 3, Q⟩ : TaskSpec)]).filter
        fun t => t.ttype = TaskType.preset) = [] := rfl
    rw [hbase, hopen, List.nil_append, List.append_nil]
    have hfilter2 : ∀ (l : List Nat),
        (l.filter (((fun t : TaskSpec => decide (t.ttype = TaskType.preset)) ∘
          fun e : String × Nat => (⟨TaskType.preset, some e.1, 2, e.2⟩ : TaskSpec)) ∘
          fun i => (presets.getD i "", countIdx i presets.length Q))) = l := by
      intro l
      apply List.filter_eq_self.mpr
      intro i _
      rfl
    rw [hdist, List.filter_map, List.filter_map, List.filter_map, List.map_map, hfilter2]
    congr 1
    · apply List.filter_congr
      intro i _
      cases huser : userTargetUrl targetUrl with
      | none => rfl
      | some u =>
        simp only [Function.comp_apply, List.any_cons, List.any_nil, Bool.or_false]
  have hconj2 : ∀ i, i < presets.length → (countIdx i presets.length Q = 0 ↔ Q ≤ i) := by
    intro i hi
    rw [countIdx_formula hP0 hi]
    constructor
    · intro h0
      by_contra hlt
      push_neg at hlt
      rcases Nat.lt_or_ge Q presets.length with hQP | hQP
      · rw [Nat.mod_eq_of_lt hQP, if_pos hlt] at h0
        exact Nat.succ_ne_zero _ h0
      · have h1 : 1 ≤ Q / presets.length := (Nat.one_le_div_iff hP0).mpr hQP
        revert h0 h1
        generalize Q / presets.length = d
        intro h0 h1
        split_ifs at h0
        all_goals omega
    · intro hQi
      have hq : Q < presets.length := lt_of_le_of_lt hQi hi
      rw [Nat.mod_eq_of_lt hq, if_neg (by omega), Nat.div_eq_of_lt hq]
  refine ⟨hconj1, hconj2, fun huser => ?_⟩
  have hfilter_all : ((List.range (min Q presets.length)).filter fun i =>
      !decide (userTargetUrl targetUrl = some (presets.getD i ""))) =
      List.range (min Q presets.length) := by
    apply List.filter_eq_self.mpr
    intro i hi
    have hi' : i < presets.length :=
      lt_of_lt_of_le (List.mem_range.mp hi) (min_le_right _ _)
    have hmem : presets.getD i "" ∈ presets := by
      rw [List.getD_eq_getElem _ _ hi']
      exact List.getElem_mem _
    rw [Bool.not_eq_true']
    exact decide_eq_false (huser _ hmem)
  have hquotas : presetQuotas (buildTasks targetUrl Q presets) =
      (List.range (min Q presets.length)).map fun i => countIdx i presets.length Q := by
    unfold presetQuotas
    rw [hconj1, hfilter_all, List.map_map]
    rfl
  constructor
  · rw [hquotas]
    have hs := presetDistribution_sum presets Q
    rw [hdist, List.map_map] at hs
    have hcomp : (Prod.snd ∘ fun i => (presets.getD i "", countIdx i presets.length Q)) =
        fun i => countIdx i presets.length Q := rfl
    rw [hcomp] at hs
    exact hs
  · intro a ha b hb
    rw [hquotas] at ha hb
    obtain ⟨i, hi, rfl⟩ := List.mem_map.mp ha
    obtain ⟨j, hj, rfl⟩ := List.mem_map.mp hb
    have hi' : i < presets.length :=
      lt_of_lt_of_le (List.mem_range.mp hi) (min_le_right _ _)
    have hj' : j < presets.length :=
      lt_of_lt_of_le (List.mem_range.mp hj) (min_le_right _ _)
    rw [countIdx_formula hP0 hi', countIdx_formula hP0 hj']
    generalize Q / presets.length = d
    split_ifs <;> omega

/-- Witness for C5: three presets, quota 5, no user target: quotas are
`[2, 2, 1]`, summing to 5 and pairwise within 1. -/
theorem planner_round_robin_witness :
    (presetQuotas (buildTasks "" 5 ["a.com", "b.com", "c.com"])).sum = 5 ∧
      presetQuotas (buildTasks "" 5 ["a.com", "b.com", "c.com"]) = [2, 2, 1] := by
  refine ⟨((planner_round_robin ["a.com", "b.com", "c.com"] "" 5 (by decide) (by decide)
    (by decide) (by decide)).2.2 ?_).1, by decide⟩
  intro p _ h
  rw [show userTargetUrl "" = none from rfl] at h
  cases h

end CareerFlow
